import Mathlib

/-!
Verification of the Huffman codec in `src/file_compressor.cpp`
(`FileCompressor::compress`, `FileCompressor::decompress` and their helpers).

Modelling conventions, matching the C++ source:

* A byte is a `Nat` (the values written by the program are always < 256).
* `Node*` is modelled by `HTree`: the `nil` constructor is the null pointer,
  and `mk ch l r` is a `Node` with character `ch` and child pointers `l`, `r`.
  A node whose two children are null is a leaf (this is exactly the test
  `!node->left && !node->right` used by `writeTree` and `buildCodeMap`).
* `std::priority_queue<Node*,...,Compare>` with `Compare` ordering by `freq`
  only: which of several equal-frequency nodes is popped first is not fixed
  by the comparator.  The extraction is therefore parameterised by an oracle
  `os : List Nat`; at each pop, the oracle choice selects one element among
  all elements of minimal frequency.  Every behaviour of the real program is
  one oracle; theorems quantified over `os` cover them all.
* Undefined behaviour of the C++ (dereferencing a null `Node*`, reading an
  uninitialised variable after a failed `istream` read, `pq.top()` on an
  empty priority queue) is modelled as a distinguished failure:
  `Option.none` for `compressO`, `DRes.undef` for `decompress`.
* Bit strings (`std::string` of '0'/'1') are `List Bool`, `false` = '0' =
  go left, `true` = '1' = go right, matching `buildCodeMap`/the decode walk.
-/

/-- Model of `struct Node`: `nil` is the null pointer; `mk ch l r` is a node
with stored character `ch` and children `l`, `r` (freq is kept separately,
it is only used while building the tree and is never serialized). -/
inductive HTree where
  | nil : HTree
  | mk (ch : Nat) (l : HTree) (r : HTree) : HTree
deriving DecidableEq, Repr

/-- Result of `FileCompressor::decompress`: `ok out` models `return true`
having written the bytes `out`; `invalid` models the `return false` taken on
a magic-tag mismatch; `undef` models undefined behaviour (null `Node*`
dereference in the decode walk, or use of an uninitialised variable after a
short read). -/
inductive DRes where
  | ok (out : List Nat) : DRes
  | invalid : DRes
  | undef : DRes
deriving DecidableEq, Repr

/-- Placeholder element used by the total indexing helpers (never selected in
a reachable execution). -/
def dummyNode : HTree × Nat := (HTree.mk 0 .nil .nil, 0)

/-- Total list indexing with a default, used to model vector indexing. -/
def nthD {α : Type} : List α → Nat → α → α
  | [], _, d => d
  | a :: _, 0, _ => a
  | _ :: t, n + 1, d => nthD t n d

/-- Remove the element at an index (no-op when out of range). -/
def removeAt {α : Type} : List α → Nat → List α
  | [], _ => []
  | _ :: t, 0 => t
  | a :: t, n + 1 => a :: removeAt t n

/-- One step of the frequency-table key scan: append a byte if unseen.
(`unordered_map` iteration order is not fixed by the standard; the canonical
entry order used here is first-occurrence order.  The order only influences
the priority queue through equal-frequency ties, which the extraction oracle
already ranges over.) -/
def addSym (acc : List Nat) (c : Nat) : List Nat :=
  if c ∈ acc then acc else acc ++ [c]

/-- The distinct byte values of the input, in first-occurrence order. -/
def distinctSyms (x : List Nat) : List Nat := x.foldl addSym []

/-- The frequency table built by the first read loop of `compress`:
each distinct byte paired with its occurrence count. -/
def freqList (x : List Nat) : List (Nat × Nat) :=
  (distinctSyms x).map (fun s => (s, x.count s))

/-- Minimal frequency in a forest (0 for the empty forest, never used there). -/
def minFreq : List (HTree × Nat) → Nat
  | [] => 0
  | p :: ps => ps.foldl (fun m q => Nat.min m q.2) p.2

/-- Index of the element the oracle choice `k` selects among all elements
of minimal frequency (the comparator constrains the popped element only up
to frequency). -/
def pickIdx (k : Nat) (l : List (HTree × Nat)) : Nat :=
  nthD ((List.range l.length).filter
      (fun i => (nthD l i dummyNode).2 == minFreq l))
    (k % ((List.range l.length).filter
      (fun i => (nthD l i dummyNode).2 == minFreq l)).length) 0

/-- Model of one `pq.top(); pq.pop()` pair: the comparator `Compare` orders
by `freq` alone, so any element of minimal frequency may be the one popped;
the oracle value `k` selects which.  Returns the popped element and the
remaining forest; `none` only on an empty forest. -/
def pickMin (k : Nat) (l : List (HTree × Nat)) :
    Option ((HTree × Nat) × List (HTree × Nat)) :=
  match l with
  | [] => none
  | a :: as =>
    some (nthD (a :: as) (pickIdx k (a :: as)) dummyNode,
      removeAt (a :: as) (pickIdx k (a :: as)))

/-- The merge loop `while (pq.size() > 1) { ... }` of `compress`: pop two
minimal nodes (first popped becomes the left child, as in the source), push
an internal node with ch `'\0'` and the summed frequency.  `fuel` bounds the
iteration count; `l.length` is always sufficient since each round shortens
the forest by one. -/
def buildLoop (os : List Nat) : Nat → Nat → List (HTree × Nat) → List (HTree × Nat)
  | 0, _, l => l
  | fuel + 1, step, l =>
    if l.length ≤ 1 then l
    else
      match pickMin (nthD os step 0) l with
      | none => l
      | some (a, l1) =>
        match pickMin (nthD os (step + 1) 0) l1 with
        | none => l
        | some (b, l2) =>
          buildLoop os fuel (step + 2) (l2 ++ [(HTree.mk 0 a.1 b.1, a.2 + b.2)])

/-- The single-distinct-symbol special case of `compress`
(`if (pq.size() == 1) { root = new Node('\0', f); root->left = single; ... }`):
the lone leaf is wrapped as the left child of a fresh internal node whose
right child stays null. -/
def wrapSingle (init : List (HTree × Nat)) : List (HTree × Nat) :=
  match init with
  | [p] => [(HTree.mk 0 p.1 .nil, p.2)]
  | l => l

/-- The whole tree-building stage of `compress`: initial forest from the
frequency table, singleton wrap, merge loop, then `pq.top()`.  `none` models
the undefined `pq.top()` on an empty queue (empty input). -/
def buildTree (os : List Nat) (x : List Nat) : Option HTree :=
  let init := (freqList x).map (fun p => (HTree.mk p.1 .nil .nil, p.2))
  let init2 := wrapSingle init
  match buildLoop os init2.length 0 init2 with
  | [] => none
  | p :: _ => some p.1

/-- `unordered_map<char,string>` assignment `m[k] = v`: replace the entry if
the key is present, otherwise append it. -/
def mapSet (m : List (Nat × List Bool)) (k : Nat) (v : List Bool) :
    List (Nat × List Bool) :=
  if m.any (fun p => p.1 == k) then
    m.map (fun p => if p.1 == k then (k, v) else p)
  else m ++ [(k, v)]

/-- `FileCompressor::buildCodeMap`: depth-first walk accumulating the path
string; at a leaf (`!left && !right`) the accumulated string is stored, with
the empty string replaced by "0"; recursion into a null child is a no-op. -/
def buildCodeMap : HTree → List Bool → List (Nat × List Bool) → List (Nat × List Bool)
  | .nil, _, m => m
  | .mk c l r, str, m =>
    let m1 := if l = .nil ∧ r = .nil then
        mapSet m c (if str = [] then [false] else str)
      else m
    let m2 := buildCodeMap l (str ++ [false]) m1
    buildCodeMap r (str ++ [true]) m2

/-- Lookup `codeMap[ch]` (with the `operator[]` default of the empty string
for an absent key; never taken on the bytes of the input). -/
def codeOf (m : List (Nat × List Bool)) (c : Nat) : List Bool :=
  ((m.find? (fun p => p.1 == c)).map Prod.snd).getD []

/-- The code map of a tree, as `compress` computes it. -/
def codeMapOf (t : HTree) : List (Nat × List Bool) :=
  buildCodeMap t [] []

/-- The encode loop `while (in.get(ch)) buffer += codeMap[ch];`:
concatenation of the per-byte codes in input order. -/
def encBitsFrom (cm : List (Nat × List Bool)) (x : List Nat) : List Bool :=
  x.foldl (fun acc c => acc ++ codeOf cm c) []

/-- The padding count `8 - (buffer.size() % 8)`: between 1 and 8, with 8
acting as the already-aligned sentinel. -/
def padOf (bits : List Bool) : Nat := 8 - bits.length % 8

/-- `if (padding != 8) buffer += string(padding, '0');` -/
def padBits (bits : List Bool) : List Bool :=
  if padOf bits = 8 then bits else bits ++ List.replicate (padOf bits) false

/-- `FileCompressor::writeTree`: pre-order serialization; null pointer writes
nothing, a leaf writes '1' (49) then its byte, an internal node writes
'0' (48) followed by both subtrees. -/
def writeTree : HTree → List Nat
  | .nil => []
  | .mk c l r =>
    if l = .nil ∧ r = .nil then [49, c]
    else 48 :: (writeTree l ++ writeTree r)

/-- `bitset<8>(buffer.substr(i,8)).to_ulong()`: a chunk of up to 8 bit
characters packed with the first character as the most significant bit. -/
def bitsToByte (bs : List Bool) : Nat :=
  bs.foldl (fun a b => 2 * a + (if b then 1 else 0)) 0

/-- The packing loop of `compress`: successive 8-bit chunks of the padded
buffer, each written as one byte (a final chunk of fewer than 8 bits would
be packed as its low bits, but the buffer is always padded to a multiple
of 8 before this loop runs). -/
def bitsToBytes : List Bool → List Nat
  | [] => []
  | b1 :: b2 :: b3 :: b4 :: b5 :: b6 :: b7 :: b8 :: rest =>
    bitsToByte [b1, b2, b3, b4, b5, b6, b7, b8] :: bitsToBytes rest
  | bs => [bitsToByte bs]

/-- `bitset<8>(byte).to_string()`: the 8 bits of a byte, most significant
first (the `char` sign extension is truncated away by `bitset<8>`). -/
def byteBits (n : Nat) : List Bool :=
  [n % 256 / 128 % 2 == 1, n % 256 / 64 % 2 == 1, n % 256 / 32 % 2 == 1,
   n % 256 / 16 % 2 == 1, n % 256 / 8 % 2 == 1, n % 256 / 4 % 2 == 1,
   n % 256 / 2 % 2 == 1, n % 256 % 2 == 1]

/-- The decompress read loop turning the remaining container bytes into the
bit string. -/
def bytesToBits (bs : List Nat) : List Bool :=
  bs.foldr (fun b acc => byteBits b ++ acc) []

/-- `out.write(reinterpret_cast<const char*>(&totalChars), 8)`: the 8 bytes
of `size_t totalChars` in x86 (little-endian) host order. -/
def le64 (n : Nat) : List Nat :=
  [n % 256, n / 256 % 256, n / 65536 % 256, n / 16777216 % 256,
   n / 4294967296 % 256, n / 1099511627776 % 256,
   n / 281474976710656 % 256, n / 72057594037927936 % 256]

/-- `in.read(reinterpret_cast<char*>(&originalSize), 8)`: value of 8 bytes
read back in little-endian (x86 host) order. -/
def leVal (bs : List Nat) : Nat :=
  bs.foldr (fun b acc => b + 256 * acc) 0

/-- The bytes `compress` writes for a given built tree and input: magic
"HUF1", serialized tree, '#' (35), 8-byte original size, the padding byte,
then the packed payload. -/
def containerBytes (root : HTree) (x : List Nat) : List Nat :=
  [72, 85, 70, 49] ++ writeTree root ++ [35] ++ le64 x.length
    ++ [padOf (encBitsFrom (codeMapOf root) x)]
    ++ bitsToBytes (padBits (encBitsFrom (codeMapOf root) x))

/-- `FileCompressor::compress` (file I/O and statistics stripped): `none`
models the undefined `pq.top()` on an empty priority queue, reached exactly
on empty input, for which the source has no special case. -/
def compressO (os : List Nat) (x : List Nat) : Option (List Nat) :=
  match buildTree os x with
  | none => none
  | some root => some (containerBytes root x)

/-- `FileCompressor::readTree`, with fuel (every call consumes at least one
byte, so any fuel exceeding the stream length is enough).  `none` models the
read of an uninitialised variable after `in.get` fails at end of stream (the
source checks no stream state).  A discriminator that is neither '1' nor '0'
silently yields the null pointer, consuming the byte. -/
def readTreeF : Nat → List Nat → Option (HTree × List Nat)
  | 0, _ => none
  | _ + 1, [] => none
  | fuel + 1, b :: rest =>
    if b = 49 then
      match rest with
      | [] => none
      | c :: r2 => some (HTree.mk c .nil .nil, r2)
    else if b = 48 then
      match readTreeF fuel rest with
      | none => none
      | some (l, r1) =>
        match readTreeF fuel r1 with
        | none => none
        | some (r, r2) => some (HTree.mk 0 l r, r2)
    else some (HTree.nil, rest)

/-- The padding strip of `decompress`:
`if (padding != 8) bitString = bitString.substr(0, bitString.size() - padding);`
The subtraction is on `size_t` with `padding` sign-extended from `char`, and
`substr` clamps its count, so a padding byte larger than the bit count (or
one that is negative as a `char`, ≥ 128) leaves the string whole. -/
def stripPad (bits : List Bool) (pad : Nat) : List Bool :=
  if pad = 8 then bits
  else if pad < 128 ∧ pad ≤ bits.length then bits.take (bits.length - pad)
  else bits

/-- The decode walk of `decompress`: for each bit (stopping once
`decodedChars >= originalSize`), step to the left ('0') or right ('1') child
and emit the symbol on reaching a leaf.  `none` models the null-pointer
dereference the source performs when the current node or the child just
stepped to is null. -/
def decodeLoop (root : HTree) : List Bool → HTree → Nat → Nat → List Nat → Option (List Nat)
  | [], _, _, _, acc => some acc
  | bit :: bits, curr, dec, size, acc =>
    if size ≤ dec then some acc
    else
      match curr with
      | .nil => none
      | .mk _ l r =>
        match (if bit then r else l) with
        | .nil => none
        | .mk ch nl nr =>
          if nl = .nil ∧ nr = .nil then
            decodeLoop root bits root (dec + 1) size (acc ++ [ch])
          else decodeLoop root bits (HTree.mk ch nl nr) dec size acc

/-- `FileCompressor::decompress` (file I/O stripped): magic check, tree
read, delimiter skip (`in.get(delimiter)` consumes one byte whose value is
never used), 8-byte size read, padding byte read, bit conversion, padding
strip, decode walk.  `undef` marks the undefined behaviours noted on the
helpers; a short size read or a missing padding byte likewise leaves an
uninitialised variable that is subsequently used. -/
def decompress (bs : List Nat) : DRes :=
  if bs.take 4 = [72, 85, 70, 49] then
    match readTreeF ((bs.drop 4).length + 1) (bs.drop 4) with
    | none => .undef
    | some (root, r1) =>
      let r2 := r1.drop 1
      if r2.length < 8 then .undef
      else
        match r2.drop 8 with
        | [] => .undef
        | pad :: r4 =>
          match decodeLoop root (stripPad (bytesToBits r4) pad) root 0
              (leVal (r2.take 8)) [] with
          | none => .undef
          | some out => .ok out
  else .invalid

/-- Shape invariant of the trees the merge loop produces: the tree is not
null, every internal node stores `'\0'` (0) and has two non-null children.
The singleton wrap (`mk 0 leaf nil`) does not satisfy it. -/
def goodTree : HTree → Bool
  | .nil => false
  | .mk c l r =>
    if l = .nil ∧ r = .nil then true
    else c == 0 && goodTree l && goodTree r

/-- The input of the concrete scenario of §8 of the spec: "aaaabbbcc". -/
def exInput : List Nat := [97, 97, 97, 97, 98, 98, 98, 99, 99]

/-- The code map the compression pipeline derives for `exInput`. -/
def exCM : List (Nat × List Bool) :=
  codeMapOf ((buildTree [] exInput).getD .nil)

/-- The tree `compress` builds for the two-byte input "ab" (used as a
concrete instance in several witnesses). -/
def exPairTree : HTree :=
  HTree.mk 0 (HTree.mk 97 .nil .nil) (HTree.mk 98 .nil .nil)

/-! ## General lemmas -/

theorem buildLoop_congr (os₁ os₂ : List Nat)
    (h : ∀ i, nthD os₁ i 0 = nthD os₂ i 0) :
    ∀ fuel step l, buildLoop os₁ fuel step l = buildLoop os₂ fuel step l := by
  intro fuel
  induction fuel with
  | zero => intro step l; rfl
  | succ n ih =>
    intro step l
    simp only [buildLoop, h step, h (step + 1)]
    split
    · rfl
    · split
      · rfl
      · split
        · rfl
        · exact ih _ _

/-! ## Claim theorems -/

/-- C1: the round-trip `decompress (compress x) = x` fails on the code: for
the single-byte input "a" ([97]), compression succeeds but decompression
returns success with an empty output, because `readTree` consumes the '#'
delimiter as the discriminator of the singleton root's null right child and
every later header field is read one byte late. -/
theorem c1_roundtrip_fails_on_singleton :
    (compressO [] [97]).isSome = true ∧
    decompress ((compressO [] [97]).getD []) = DRes.ok [] := by decide

/-- C2: the claim's empty-input special case does not exist in the code:
for zero-byte input the priority queue is empty and `compress` performs
`pq.top()` on it, which is undefined behaviour (modelled by `none`); no
minimal payload-less container is emitted, under any extraction order. -/
theorem c2_empty_input_is_undefined (os : List Nat) : compressO os [] = none := rfl

/-- C3: truncating a valid container's payload does not produce an
`UnexpectedEndOfStream` failure: the full container for "ab" decompresses
to [97, 98], and the same container with its single payload byte removed
decompresses to a SUCCESSFUL result with zero of the two declared symbols
(the decode loop just runs out of bits and `decompress` returns true). -/
theorem c3_truncation_silently_succeeds :
    decompress ((compressO [] [97, 98]).getD []) = DRes.ok [97, 98] ∧
    decompress (((compressO [] [97, 98]).getD []).dropLast) = DRes.ok [] := by decide

/-- C4: no `MalformedTree` failure exists in the code.  A stream whose tree
discriminator is '#' (35, neither '1' nor '0') makes `readTree` silently
return the null pointer: with declared size 0 decompression then SUCCEEDS
with empty output; with declared size 1 it dereferences the null root
(undefined behaviour, `undef`).  A stream that ends inside the tree makes
`in.get` fail and the uninitialised discriminator is then used (`undef`).
None of the three is a reported, inspectable failure. -/
theorem c4_no_malformed_tree_failure :
    decompress [72, 85, 70, 49, 35, 99, 0, 0, 0, 0, 0, 0, 0, 0, 8] = DRes.ok [] ∧
    decompress [72, 85, 70, 49, 35, 99, 1, 0, 0, 0, 0, 0, 0, 0, 8, 255] = DRes.undef ∧
    decompress [72, 85, 70, 49, 48] = DRes.undef := by decide

/-- C5 (counterexample): the comparator orders by frequency only, so for the
input "ab" (two equal-frequency symbols) two admissible equal-weight
extraction orders of the priority queue produce different containers: the
claim that the pipeline has a fixed tie-break order is false. -/
theorem c5_tiebreak_not_fixed :
    compressO [1] [97, 98] ≠ compressO [] [97, 98] := by decide

/-- C5 (amended): the container is a function of the input together with
the equal-weight extraction choices: two runs that pop equal-frequency
nodes in the same order produce byte-identical containers.  (The choice
sequence is compared as a choice function, not as a list.) -/
theorem c5_deterministic_given_tiebreak (os₁ os₂ x : List Nat)
    (h : ∀ i, nthD os₁ i 0 = nthD os₂ i 0) :
    compressO os₁ x = compressO os₂ x := by
  unfold compressO buildTree
  simp only [buildLoop_congr os₁ os₂ h]

theorem c5_deterministic_given_tiebreak_witness :
    compressO [0] [97, 98] = compressO [] [97, 98] :=
  c5_deterministic_given_tiebreak [0] [] [97, 98] (by
    intro i
    cases i with
    | zero => rfl
    | succ j => cases j <;> rfl)

/-- C9: for the concrete input "aaaabbbcc" (4 x 'a', 3 x 'b', 2 x 'c') the
built tree gives 'a' a code no longer than those of 'b' and 'c', the number
of concatenated code bits handed to the packer equals the sum over symbols
of frequency times code length (14), and decompressing the produced
container returns exactly "aaaabbbcc". -/
theorem c9_concrete_scenario :
    (codeOf exCM 97).length ≤ (codeOf exCM 98).length ∧
    (codeOf exCM 97).length ≤ (codeOf exCM 99).length ∧
    (encBitsFrom exCM exInput).length =
      ((freqList exInput).map (fun p => p.2 * (codeOf exCM p.1).length)).sum ∧
    decompress ((compressO [] exInput).getD []) = DRes.ok exInput := by decide

/-! ## List helpers -/

theorem nthD_mem_or_default {α : Type} :
    ∀ (l : List α) (j : Nat) (d : α), nthD l j d ∈ l ∨ nthD l j d = d := by
  intro l
  induction l with
  | nil => intro j d; right; cases j <;> rfl
  | cons a t ih =>
    intro j d
    cases j with
    | zero => left; exact List.mem_cons_self a t
    | succ n =>
      rcases ih n d with h | h
      · left; exact List.mem_cons_of_mem a h
      · right; exact h

theorem removeAt_subset {α : Type} :
    ∀ (l : List α) (j : Nat), ∀ a ∈ removeAt l j, a ∈ l := by
  intro l
  induction l with
  | nil => intro j a h; simp [removeAt] at h
  | cons b t ih =>
    intro j a h
    cases j with
    | zero => exact List.mem_cons_of_mem b h
    | succ n =>
      rcases List.mem_cons.mp h with rfl | h
      · exact List.mem_cons_self a t
      · exact List.mem_cons_of_mem b (ih n a h)

theorem removeAt_length {α : Type} :
    ∀ (l : List α) (j : Nat), j < l.length → (removeAt l j).length = l.length - 1 := by
  intro l
  induction l with
  | nil => intro j h; simp at h
  | cons b t ih =>
    intro j h
    cases j with
    | zero => simp [removeAt]
    | succ n =>
      have hn : n < t.length := by simpa using h
      have := ih n hn
      simp only [removeAt, List.length_cons, this]
      omega

theorem take_append_self {α : Type} :
    ∀ (l r : List α), (l ++ r).take l.length = l := by
  intro l r
  induction l with
  | nil => rfl
  | cons a t ih => simp [List.take_succ_cons, ih]

/-! ## pickMin facts -/

theorem pickIdx_lt (k : Nat) (l : List (HTree × Nat)) (hne : l ≠ []) :
    pickIdx k l < l.length := by
  have h0 : 0 < l.length := List.length_pos.mpr hne
  unfold pickIdx
  rcases nthD_mem_or_default ((List.range l.length).filter
      (fun i => (nthD l i dummyNode).2 == minFreq l))
      (k % ((List.range l.length).filter
        (fun i => (nthD l i dummyNode).2 == minFreq l)).length) 0 with h | h
  · exact List.mem_range.mp (List.mem_filter.mp h).1
  · rw [h]; exact h0

theorem pickMin_eq_none {k : Nat} {l : List (HTree × Nat)}
    (h : pickMin k l = none) : l = [] := by
  match l with
  | [] => rfl
  | b :: bs => simp [pickMin] at h

theorem pickMin_isSome (k : Nat) (l : List (HTree × Nat)) (hne : l ≠ []) :
    ∃ a l', pickMin k l = some (a, l') := by
  match l with
  | b :: bs => exact ⟨_, _, rfl⟩

theorem pickMin_eq_some {k : Nat} {l : List (HTree × Nat)} {a : HTree × Nat}
    {l' : List (HTree × Nat)} (h : pickMin k l = some (a, l')) :
    (a ∈ l ∨ a = dummyNode) ∧ (∀ q ∈ l', q ∈ l) ∧ l'.length + 1 = l.length := by
  match l with
  | [] => simp [pickMin] at h
  | b :: bs =>
    simp only [pickMin, Option.some.injEq, Prod.mk.injEq] at h
    obtain ⟨ha, hl⟩ := h
    subst ha; subst hl
    refine ⟨nthD_mem_or_default _ _ _, removeAt_subset _ _, ?_⟩
    have hlt : pickIdx k (b :: bs) < (b :: bs).length := pickIdx_lt k _ (by simp)
    have := removeAt_length (b :: bs) (pickIdx k (b :: bs)) hlt
    simp only [List.length_cons] at this ⊢
    omega

/-! ## goodTree facts -/

theorem goodTree_ne_nil {t : HTree} (h : goodTree t = true) : t ≠ .nil := by
  intro e; subst e; simp [goodTree] at h

theorem goodTree_children {c : Nat} {l r : HTree}
    (h : goodTree (.mk c l r) = true) (hnl : ¬(l = .nil ∧ r = .nil)) :
    c = 0 ∧ l ≠ .nil ∧ r ≠ .nil ∧ goodTree l = true ∧ goodTree r = true := by
  rw [goodTree, if_neg hnl] at h
  simp only [Bool.and_eq_true, beq_iff_eq] at h
  obtain ⟨⟨hc, hl⟩, hr⟩ := h
  exact ⟨hc, goodTree_ne_nil hl, goodTree_ne_nil hr, hl, hr⟩

theorem goodTree_merge {A B : HTree} (ha : goodTree A = true) (hb : goodTree B = true) :
    goodTree (HTree.mk 0 A B) = true := by
  have hA := goodTree_ne_nil ha
  rw [goodTree, if_neg (by tauto)]
  simp [ha, hb]

/-! ## buildLoop invariants -/

theorem buildLoop_short (os : List Nat) (fuel step : Nat) (l : List (HTree × Nat))
    (h : l.length ≤ 1) : buildLoop os fuel step l = l := by
  cases fuel with
  | zero => rfl
  | succ n => simp only [buildLoop]; rw [if_pos h]

theorem buildLoop_good (os : List Nat) :
    ∀ fuel step l, (∀ e ∈ l, goodTree e.1 = true) →
      ∀ e ∈ buildLoop os fuel step l, goodTree e.1 = true := by
  intro fuel
  induction fuel with
  | zero => exact fun step l h e he => h e he
  | succ n ih =>
    intro step l h e he
    simp only [buildLoop] at he
    split at he
    · exact h e he
    · rename_i hlen
      split at he
      · exact h e he
      · rename_i a l1 hp
        split at he
        · exact h e he
        · rename_i b l2 hq
          obtain ⟨hma, hs1, hl1⟩ := pickMin_eq_some hp
          obtain ⟨hmb, hs2, hl2⟩ := pickMin_eq_some hq
          refine ih (step + 2) _ ?_ e he
          intro q hq2
          rcases List.mem_append.mp hq2 with h2 | h2
          · exact h q (hs1 q (hs2 q h2))
          · have hqe : q = (HTree.mk 0 a.1 b.1, a.2 + b.2) := List.mem_singleton.mp h2
            subst hqe
            have ga : goodTree a.1 = true := by
              rcases hma with hm | hm
              · exact h a hm
              · rw [hm]; decide
            have gb : goodTree b.1 = true := by
              rcases hmb with hm | hm
              · exact h b (hs1 b hm)
              · rw [hm]; decide
            exact goodTree_merge ga gb

theorem buildLoop_pair (os : List Nat) :
    ∀ fuel step l, 2 ≤ l.length → l.length ≤ fuel →
      (∀ e ∈ l, e.1 ≠ .nil) →
      ∃ A B fr, buildLoop os fuel step l = [(HTree.mk 0 A B, fr)] ∧
        A ≠ .nil ∧ B ≠ .nil := by
  intro fuel
  induction fuel with
  | zero => intro step l h2 hf; omega
  | succ n ih =>
    intro step l h2 hf hnil
    simp only [buildLoop]
    rw [if_neg (by omega)]
    have hne : l ≠ [] := by intro e; subst e; simp at h2
    split
    · rename_i hp; exact absurd (pickMin_eq_none hp) hne
    · rename_i a l1 hp
      obtain ⟨hma, hs1, hl1⟩ := pickMin_eq_some hp
      have hne1 : l1 ≠ [] := by
        intro e; subst e; simp only [List.length_nil] at hl1; omega
      split
      · rename_i hq; exact absurd (pickMin_eq_none hq) hne1
      · rename_i b l2 hq
        obtain ⟨hmb, hs2, hl2⟩ := pickMin_eq_some hq
        have ha : a.1 ≠ .nil := by
          rcases hma with hm | hm
          · exact hnil a hm
          · rw [hm]; simp [dummyNode]
        have hb : b.1 ≠ .nil := by
          rcases hmb with hm | hm
          · exact hnil b (hs1 b hm)
          · rw [hm]; simp [dummyNode]
        by_cases hl : l.length = 2
        · have hl2' : l2 = [] := by
            have : l2.length = 0 := by omega
            exact List.eq_nil_of_length_eq_zero this
          subst hl2'
          rw [buildLoop_short os n (step + 2) _ (by simp)]
          exact ⟨a.1, b.1, a.2 + b.2, rfl, ha, hb⟩
        · refine ih (step + 2) (l2 ++ [(HTree.mk 0 a.1 b.1, a.2 + b.2)])
            (by simp; omega) (by simp; omega) ?_
          intro q hq2
          rcases List.mem_append.mp hq2 with h2' | h2'
          · exact hnil q (hs1 q (hs2 q h2'))
          · have hqe : q = (HTree.mk 0 a.1 b.1, a.2 + b.2) := List.mem_singleton.mp h2'
            subst hqe
            simp

/-! ## Tree serialization lemmas -/

theorem readTreeF_writeTree :
    ∀ t : HTree, goodTree t = true → ∀ (rest : List Nat) (fuel : Nat),
      (writeTree t).length < fuel →
      readTreeF fuel (writeTree t ++ rest) = some (t, rest) := by
  intro t
  induction t with
  | nil => intro h; simp [goodTree] at h
  | mk c l r ihl ihr =>
    intro h rest fuel hf
    by_cases hlr : l = .nil ∧ r = .nil
    · obtain ⟨rfl, rfl⟩ := hlr
      rw [writeTree, if_pos ⟨rfl, rfl⟩] at hf ⊢
      cases fuel with
      | zero => omega
      | succ f => simp [readTreeF]
    · obtain ⟨hc, _, _, gl, gr⟩ := goodTree_children h hlr
      subst hc
      rw [writeTree, if_neg hlr] at hf ⊢
      cases fuel with
      | zero => omega
      | succ f =>
        simp only [List.length_cons, List.length_append] at hf
        have hwl : (writeTree l).length < f := by omega
        have hwr : (writeTree r).length < f := by omega
        have step1 : readTreeF f (writeTree l ++ (writeTree r ++ rest))
            = some (l, writeTree r ++ rest) := ihl gl (writeTree r ++ rest) f hwl
        have step2 : readTreeF f (writeTree r ++ rest) = some (r, rest) :=
          ihr gr rest f hwr
        simp [readTreeF, List.append_assoc, step1, step2]

theorem readTreeF_single (c : Nat) (R : List Nat) (fuel : Nat) (h3 : 3 ≤ fuel) :
    readTreeF fuel (48 :: 49 :: c :: 35 :: R)
      = some (HTree.mk 0 (HTree.mk c .nil .nil) .nil, R) := by
  obtain ⟨f, rfl⟩ : ∃ f, fuel = f + 3 := ⟨fuel - 3, by omega⟩
  simp [readTreeF]

/-! ## Consequences for the built tree -/

theorem buildTree_map_good (x : List Nat) :
    ∀ e ∈ (freqList x).map (fun p => ((HTree.mk p.1 .nil .nil : HTree), p.2)),
      goodTree e.1 = true := by
  intro e he
  obtain ⟨p, _, rfl⟩ := List.mem_map.mp he
  simp [goodTree]

theorem buildTree_two {os x : List Nat} {root : HTree}
    (h2 : 2 ≤ (freqList x).length) (hb : buildTree os x = some root) :
    goodTree root = true ∧ ∃ A B, root = HTree.mk 0 A B ∧ A ≠ .nil ∧ B ≠ .nil := by
  have hg := buildTree_map_good x
  have hnil : ∀ e ∈ (freqList x).map (fun p => ((HTree.mk p.1 .nil .nil : HTree), p.2)),
      e.1 ≠ HTree.nil := fun e he => goodTree_ne_nil (hg e he)
  simp only [buildTree] at hb
  generalize hL : (freqList x).map (fun p => ((HTree.mk p.1 .nil .nil : HTree), p.2)) = L at *
  have hlen : 2 ≤ L.length := by rw [← hL]; simpa using h2
  have hw : wrapSingle L = L := by
    rcases L with _ | ⟨a, _ | ⟨b, t⟩⟩
    · simp at hlen
    · simp at hlen
    · rfl
  rw [hw] at hb
  obtain ⟨A, B, fr, heq, hA, hB⟩ :=
    buildLoop_pair os L.length 0 L hlen (le_refl _) hnil
  rw [heq] at hb
  have hroot : root = HTree.mk 0 A B := by
    simp only [Option.some.injEq] at hb
    exact hb.symm
  have hgood := buildLoop_good os L.length 0 L hg
  rw [heq] at hgood
  have : goodTree (HTree.mk 0 A B) = true := by
    have := hgood (HTree.mk 0 A B, fr) (by simp)
    simpa using this
  exact ⟨by rw [hroot]; exact this, A, B, hroot, hA, hB⟩

/-! ## C7 theorems -/

/-- C7 (counterexample): `compress` can build the singleton tree for the
input "a"; its serialization is the three bytes [48, 49, 97], yet reading
those three bytes followed by the delimiter byte 35 consumes all FOUR bytes
(the deserializer takes 35 as the discriminator of the null right child),
so the deserializer does not consume exactly the bytes the serializer
wrote. -/
theorem c7_singleton_overconsumes :
    buildTree [] [97] = some (HTree.mk 0 (HTree.mk 97 .nil .nil) .nil) ∧
    writeTree (HTree.mk 0 (HTree.mk 97 .nil .nil) .nil) = [48, 49, 97] ∧
    readTreeF 5 ([48, 49, 97] ++ [35])
      = some (HTree.mk 0 (HTree.mk 97 .nil .nil) .nil, []) := by decide

/-- C7 (amended): for every tree `compress` builds from an input with at
least two distinct byte values (every internal node then has two children),
deserializing the serializer's bytes reconstructs the identical tree and
consumes exactly those bytes, leaving any following bytes untouched; the
singleton-input tree is the sole exception, where one extra byte is
consumed (see the counterexample). -/
theorem c7_tree_roundtrip (os x : List Nat) (t : HTree)
    (h2 : 2 ≤ (freqList x).length) (hb : buildTree os x = some t)
    (rest : List Nat) (fuel : Nat) (hf : (writeTree t).length < fuel) :
    readTreeF fuel (writeTree t ++ rest) = some (t, rest) := by
  obtain ⟨hg, -⟩ := buildTree_two h2 hb
  exact readTreeF_writeTree t hg rest fuel hf

theorem c7_tree_roundtrip_witness :
    readTreeF 6 (writeTree exPairTree ++ [35]) = some (exPairTree, [35]) :=
  c7_tree_roundtrip [] [97, 98] exPairTree (by decide) (by decide) [35] 6 (by decide)

/-! ## Bit packing lemmas -/

theorem byteBits_bitsToByte (b1 b2 b3 b4 b5 b6 b7 b8 : Bool) :
    byteBits (bitsToByte [b1, b2, b3, b4, b5, b6, b7, b8])
      = [b1, b2, b3, b4, b5, b6, b7, b8] := by
  cases b1 <;> cases b2 <;> cases b3 <;> cases b4 <;>
    cases b5 <;> cases b6 <;> cases b7 <;> cases b8 <;> rfl

theorem bytesToBits_bitsToBytes_aux :
    ∀ (n : Nat) (bs : List Bool), bs.length ≤ n → bs.length % 8 = 0 →
      bytesToBits (bitsToBytes bs) = bs := by
  intro n
  induction n with
  | zero =>
    intro bs hl _
    have hb : bs = [] := List.eq_nil_of_length_eq_zero (by omega)
    subst hb; rfl
  | succ n ih =>
    intro bs hl hm
    rcases bs with _ | ⟨b1, bs⟩
    · rfl
    · rcases bs with _ | ⟨b2, bs⟩
      · simp at hm
      rcases bs with _ | ⟨b3, bs⟩
      · simp at hm
      rcases bs with _ | ⟨b4, bs⟩
      · simp at hm
      rcases bs with _ | ⟨b5, bs⟩
      · simp at hm
      rcases bs with _ | ⟨b6, bs⟩
      · simp at hm
      rcases bs with _ | ⟨b7, bs⟩
      · simp at hm
      rcases bs with _ | ⟨b8, bs⟩
      · simp at hm
      have hlt : bs.length ≤ n := by
        simp only [List.length_cons] at hl; omega
      have hmt : bs.length % 8 = 0 := by
        simp only [List.length_cons] at hm; omega
      show byteBits (bitsToByte [b1, b2, b3, b4, b5, b6, b7, b8])
          ++ bytesToBits (bitsToBytes bs)
          = b1 :: b2 :: b3 :: b4 :: b5 :: b6 :: b7 :: b8 :: bs
      rw [byteBits_bitsToByte, ih bs hlt hmt]
      rfl

theorem bytesToBits_bitsToBytes (bs : List Bool) (hm : bs.length % 8 = 0) :
    bytesToBits (bitsToBytes bs) = bs :=
  bytesToBits_bitsToBytes_aux bs.length bs (le_refl _) hm

theorem padOf_bounds (bits : List Bool) : 1 ≤ padOf bits ∧ padOf bits ≤ 8 := by
  unfold padOf; omega

theorem padOf_eq_eight (bits : List Bool) :
    padOf bits = 8 ↔ bits.length % 8 = 0 := by
  unfold padOf; omega

theorem padBits_length (bits : List Bool) : (padBits bits).length % 8 = 0 := by
  unfold padBits padOf
  split
  · rename_i h; omega
  · rename_i h
    simp only [List.length_append, List.length_replicate]
    omega

theorem stripPad_padBits (bits : List Bool) :
    stripPad (padBits bits) (padOf bits) = bits := by
  by_cases h8 : padOf bits = 8
  · rw [padBits, if_pos h8, stripPad, if_pos h8]
  · have hp : 1 ≤ padOf bits ∧ padOf bits ≤ 7 := by
      have := padOf_bounds bits; omega
    rw [padBits, if_neg h8, stripPad, if_neg h8,
      if_pos ⟨by omega, by simp only [List.length_append, List.length_replicate]; omega⟩]
    simp only [List.length_append, List.length_replicate]
    have hc : bits.length + padOf bits - padOf bits = bits.length := by omega
    rw [hc, take_append_self]

/-! ## C8 theorem -/

/-- C8: for every input on which compression runs (the tree stage
succeeded), the code-bit buffer is padded with zero bits to the next
multiple of 8, the recorded pad byte is between 1 and 7 when a partial byte
was padded and the sentinel 8 when the buffer was already byte-aligned
(never 0 on the wire), the container carries exactly this pad byte between
the size field and the payload, and stripping the recorded number of
trailing bits (none when the value is 8) from the payload bits recovers
exactly the code bits. -/
theorem c8_padding_sentinel (os x : List Nat) (root : HTree)
    (hb : buildTree os x = some root) :
    1 ≤ padOf (encBitsFrom (codeMapOf root) x) ∧
    padOf (encBitsFrom (codeMapOf root) x) ≤ 8 ∧
    (padOf (encBitsFrom (codeMapOf root) x) = 8 ↔
      (encBitsFrom (codeMapOf root) x).length % 8 = 0) ∧
    compressO os x = some ([72, 85, 70, 49] ++ writeTree root ++ [35] ++ le64 x.length
      ++ [padOf (encBitsFrom (codeMapOf root) x)]
      ++ bitsToBytes (padBits (encBitsFrom (codeMapOf root) x))) ∧
    stripPad (bytesToBits (bitsToBytes (padBits (encBitsFrom (codeMapOf root) x))))
      (padOf (encBitsFrom (codeMapOf root) x)) = encBitsFrom (codeMapOf root) x := by
  refine ⟨(padOf_bounds _).1, (padOf_bounds _).2, padOf_eq_eight _, ?_, ?_⟩
  · simp [compressO, hb, containerBytes]
  · rw [bytesToBits_bitsToBytes _ (padBits_length _), stripPad_padBits]

theorem c8_padding_sentinel_witness :
    stripPad (bytesToBits (bitsToBytes (padBits (encBitsFrom (codeMapOf exPairTree) [97, 98]))))
      (padOf (encBitsFrom (codeMapOf exPairTree) [97, 98]))
      = encBitsFrom (codeMapOf exPairTree) [97, 98] :=
  (c8_padding_sentinel [] [97, 98] exPairTree (by decide)).2.2.2.2

/-! ## Distinct-symbol lemmas -/

theorem addSym_mem_self (acc : List Nat) (c : Nat) : c ∈ addSym acc c := by
  unfold addSym
  split
  · assumption
  · simp

theorem addSym_mem_mono {a : Nat} {acc : List Nat} (h : a ∈ acc) (c : Nat) :
    a ∈ addSym acc c := by
  unfold addSym
  split
  · exact h
  · simp [h]

theorem foldl_addSym_mono {a : Nat} :
    ∀ (x : List Nat) (acc : List Nat), a ∈ acc → a ∈ x.foldl addSym acc := by
  intro x
  induction x with
  | nil => intro acc h; exact h
  | cons b t ih => intro acc h; exact ih _ (addSym_mem_mono h b)

theorem mem_foldl_addSym {b : Nat} :
    ∀ (x : List Nat) (acc : List Nat), b ∈ x → b ∈ x.foldl addSym acc := by
  intro x
  induction x with
  | nil => intro acc h; simp at h
  | cons a t ih =>
    intro acc h
    rcases List.mem_cons.mp h with rfl | h
    · exact foldl_addSym_mono t _ (addSym_mem_self acc b)
    · exact ih _ h

theorem mem_distinctSyms {b : Nat} {x : List Nat} (h : b ∈ x) :
    b ∈ distinctSyms x :=
  mem_foldl_addSym x [] h

theorem foldl_addSym_const {c : Nat} :
    ∀ (x : List Nat) (acc : List Nat), c ∈ acc → (∀ b ∈ x, b = c) →
      x.foldl addSym acc = acc := by
  intro x
  induction x with
  | nil => intro acc _ _; rfl
  | cons a t ih =>
    intro acc hc hall
    have ha : a = c := hall a (by simp)
    subst ha
    rw [List.foldl_cons]
    have he : addSym acc a = acc := by unfold addSym; rw [if_pos hc]
    rw [he]
    exact ih acc hc (fun b hb => hall b (by simp [hb]))

theorem distinctSyms_const {c : Nat} {x : List Nat} (hne : x ≠ [])
    (hall : ∀ b ∈ x, b = c) : distinctSyms x = [c] := by
  match x, hne with
  | a :: t, _ =>
    have ha : a = c := hall a (by simp)
    subst ha
    unfold distinctSyms
    rw [List.foldl_cons]
    have h1 : addSym [] a = [a] := rfl
    rw [h1]
    exact foldl_addSym_const t [a] (by simp) (fun b hb => hall b (by simp [hb]))

theorem freqList_const {c : Nat} {x : List Nat} (hne : x ≠ [])
    (hall : ∀ b ∈ x, b = c) : freqList x = [(c, x.count c)] := by
  simp [freqList, distinctSyms_const hne hall]

theorem freqList_map_fst (x : List Nat) :
    (freqList x).map Prod.fst = distinctSyms x := by
  simp only [freqList, List.map_map]
  have h : (Prod.fst ∘ fun s => (s, x.count s)) = id := rfl
  rw [h, List.map_id]

theorem buildTree_single {os x : List Nat} {c : Nat} (hne : x ≠ [])
    (hall : ∀ b ∈ x, b = c) :
    buildTree os x = some (HTree.mk 0 (HTree.mk c .nil .nil) .nil) := by
  have hf : freqList x = [(c, x.count c)] := freqList_const hne hall
  simp only [buildTree, hf, List.map_cons, List.map_nil, wrapSingle]
  rw [buildLoop_short _ _ _ _ (by simp)]

theorem codeMapOf_single (c : Nat) :
    codeMapOf (HTree.mk 0 (HTree.mk c .nil .nil) .nil) = [(c, [false])] := by
  simp [codeMapOf, buildCodeMap, mapSet]

theorem codeOf_singleton_map (c : Nat) (v : List Bool) :
    codeOf [(c, v)] c = v := by
  simp [codeOf, List.find?]

/-! ## Non-empty codes -/

theorem mapSet_mem {m : List (Nat × List Bool)} {k : Nat} {v : List Bool}
    {p : Nat × List Bool} (h : p ∈ mapSet m k v) : p ∈ m ∨ p = (k, v) := by
  unfold mapSet at h
  split at h
  · obtain ⟨q, hq, hpq⟩ := List.mem_map.mp h
    by_cases hk : (q.1 == k) = true
    · right; rw [if_pos hk] at hpq; exact hpq.symm
    · left
      rw [if_neg hk] at hpq
      rw [← hpq]; exact hq
  · rcases List.mem_append.mp h with h | h
    · left; exact h
    · right; simpa using h

theorem buildCodeMap_codes_nonempty :
    ∀ (t : HTree) (str : List Bool) (m : List (Nat × List Bool)),
      (∀ p ∈ m, p.2 ≠ []) → ∀ p ∈ buildCodeMap t str m, p.2 ≠ [] := by
  intro t
  induction t with
  | nil => intro str m h p hp; exact h p hp
  | mk c l r ihl ihr =>
    intro str m h p hp
    simp only [buildCodeMap] at hp
    refine ihr (str ++ [true]) _ (ihl (str ++ [false]) _ ?_) p hp
    intro q hq
    by_cases hlr : l = HTree.nil ∧ r = HTree.nil
    · rw [if_pos hlr] at hq
      rcases mapSet_mem hq with h1 | h1
      · exact h q h1
      · subst h1
        show (if str = [] then [false] else str) ≠ []
        split
        · simp
        · rename_i hs; exact hs
    · rw [if_neg hlr] at hq
      exact h q hq

/-! ## C6 theorem -/

/-- C6: for every non-empty input whose bytes are all equal to one symbol
`c` (exactly one distinct symbol), the tree `compress` builds is a root
internal node whose single leaf child is on the LEFT (the right child is
the null pointer), that symbol's code in the code map is "0" (the one-bit
string [false]), and in general `buildCodeMap` never assigns a zero-length
code to any symbol of any tree. -/
theorem c6_singleton_tree_and_codes :
    (∀ (os x : List Nat) (c : Nat), x ≠ [] → (∀ b ∈ x, b = c) →
      buildTree os x = some (HTree.mk 0 (HTree.mk c .nil .nil) .nil) ∧
      codeOf (codeMapOf (HTree.mk 0 (HTree.mk c .nil .nil) .nil)) c = [false]) ∧
    (∀ (t : HTree) (p : Nat × List Bool), p ∈ buildCodeMap t [] [] → p.2 ≠ []) := by
  constructor
  · intro os x c hne hall
    refine ⟨buildTree_single hne hall, ?_⟩
    rw [codeMapOf_single, codeOf_singleton_map]
  · intro t p hp
    exact buildCodeMap_codes_nonempty t [] [] (by simp) p hp

theorem c6_singleton_tree_and_codes_witness :
    buildTree [] [97, 97] = some (HTree.mk 0 (HTree.mk 97 .nil .nil) .nil) ∧
    ([false] : List Bool) ≠ [] :=
  ⟨(c6_singleton_tree_and_codes.1 [] [97, 97] 97 (by decide) (by decide)).1,
    c6_singleton_tree_and_codes.2 (HTree.mk 0 (HTree.mk 97 .nil .nil) .nil)
      (97, [false]) (by decide)⟩

/-! ## decompress parse lemmas -/

theorem drop_one_cons {α : Type} (a : α) (t : List α) : (a :: t).drop 1 = t := rfl

theorem drop_four_cons {α : Type} (a b c d : α) (t : List α) :
    (a :: b :: c :: d :: t).drop 4 = t := rfl

theorem take_eight_cons {α : Type} (a1 a2 a3 a4 a5 a6 a7 a8 : α) (t : List α) :
    (a1 :: a2 :: a3 :: a4 :: a5 :: a6 :: a7 :: a8 :: t).take 8
      = [a1, a2, a3, a4, a5, a6, a7, a8] := rfl

theorem drop_eight_cons {α : Type} (a1 a2 a3 a4 a5 a6 a7 a8 : α) (t : List α) :
    (a1 :: a2 :: a3 :: a4 :: a5 :: a6 :: a7 :: a8 :: t).drop 8 = t := rfl

theorem decompress_parse (bs : List Nat) (root' : HTree) (r1 : List Nat)
    (hbs : bs.take 4 = [72, 85, 70, 49])
    (hread : readTreeF ((bs.drop 4).length + 1) (bs.drop 4) = some (root', r1))
    (h8 : 8 ≤ (r1.drop 1).length) :
    decompress bs =
      match (r1.drop 1).drop 8 with
      | [] => DRes.undef
      | pad :: r4 =>
        match decodeLoop root' (stripPad (bytesToBits r4) pad) root' 0
            (leVal ((r1.drop 1).take 8)) [] with
        | none => DRes.undef
        | some out => DRes.ok out := by
  unfold decompress
  rw [if_pos hbs]
  simp only [hread]
  rw [if_neg (by omega)]

/-! ## Decode walk safety -/

theorem decodeLoop_safe {RA RB : HTree} (hgr : goodTree (HTree.mk 0 RA RB) = true)
    (hRA : RA ≠ .nil) (hRB : RB ≠ .nil) :
    ∀ (bits : List Bool) (curr : HTree) (dec size : Nat) (acc : List Nat),
      goodTree curr = true →
      (∀ c A B, curr = HTree.mk c A B → A ≠ .nil ∧ B ≠ .nil) →
      decodeLoop (HTree.mk 0 RA RB) bits curr dec size acc ≠ none := by
  intro bits
  induction bits with
  | nil => intro curr dec size acc _ _; simp [decodeLoop]
  | cons bit bs ih =>
    intro curr dec size acc hgc hch
    rcases curr with _ | ⟨c, A, B⟩
    · simp [goodTree] at hgc
    · obtain ⟨hA, hB⟩ := hch c A B rfl
      simp only [decodeLoop]
      split
      · simp
      · rcases hnext : (if bit then B else A) with _ | ⟨ch, nl, nr⟩
        · exfalso; cases bit <;> simp_all
        · show (if nl = HTree.nil ∧ nr = HTree.nil then
              decodeLoop (HTree.mk 0 RA RB) bs (HTree.mk 0 RA RB) (dec + 1) size (acc ++ [ch])
            else decodeLoop (HTree.mk 0 RA RB) bs (HTree.mk ch nl nr) dec size acc) ≠ none
          have gnext : goodTree (HTree.mk ch nl nr) = true := by
            rw [← hnext]
            obtain ⟨-, -, -, gA, gB⟩ := goodTree_children hgc (by tauto)
            cases bit <;> simpa
          by_cases hleaf : nl = HTree.nil ∧ nr = HTree.nil
          · rw [if_pos hleaf]
            refine ih _ (dec + 1) size (acc ++ [ch]) hgr ?_
            intro c' A' B' h
            injection h with h1 h2 h3
            subst h2; subst h3
            exact ⟨hRA, hRB⟩
          · rw [if_neg hleaf]
            refine ih _ dec size acc gnext ?_
            intro c' A' B' h
            injection h with h1 h2 h3
            subst h2; subst h3
            obtain ⟨-, hn1, hn2, -, -⟩ := goodTree_children gnext hleaf
            exact ⟨hn1, hn2⟩

/-! ## C10 case of two or more distinct symbols -/

theorem c10_general_case {os x : List Nat} {root : HTree}
    (h2 : 2 ≤ (freqList x).length) (hb : buildTree os x = some root) :
    decompress (containerBytes root x) ≠ DRes.undef := by
  obtain ⟨hg, A, B, hroot, hA, hB⟩ := buildTree_two h2 hb
  have h1 : containerBytes root x
      = 72 :: 85 :: 70 :: 49 :: (writeTree root
          ++ (35 :: (le64 x.length
            ++ (padOf (encBitsFrom (codeMapOf root) x)
              :: bitsToBytes (padBits (encBitsFrom (codeMapOf root) x)))))) := by
    simp [containerBytes, List.append_assoc]
  have hbs : (containerBytes root x).take 4 = [72, 85, 70, 49] := by rw [h1]; rfl
  have hdrop : (containerBytes root x).drop 4
      = writeTree root ++ (35 :: (le64 x.length
          ++ (padOf (encBitsFrom (codeMapOf root) x)
            :: bitsToBytes (padBits (encBitsFrom (codeMapOf root) x))))) := by
    rw [h1, drop_four_cons]
  have hread : readTreeF (((containerBytes root x).drop 4).length + 1)
      ((containerBytes root x).drop 4)
      = some (root, 35 :: (le64 x.length
          ++ (padOf (encBitsFrom (codeMapOf root) x)
            :: bitsToBytes (padBits (encBitsFrom (codeMapOf root) x))))) := by
    rw [hdrop]
    exact readTreeF_writeTree root hg _ _ (by simp; omega)
  have h8 : 8 ≤ ((35 :: (le64 x.length
      ++ (padOf (encBitsFrom (codeMapOf root) x)
        :: bitsToBytes (padBits (encBitsFrom (codeMapOf root) x))))).drop 1).length := by
    simp [le64]
  rw [decompress_parse _ _ _ hbs hread h8]
  rw [drop_one_cons]
  have hle : le64 x.length
      ++ (padOf (encBitsFrom (codeMapOf root) x)
        :: bitsToBytes (padBits (encBitsFrom (codeMapOf root) x)))
      = (x.length % 256) :: (x.length / 256 % 256) :: (x.length / 65536 % 256)
        :: (x.length / 16777216 % 256) :: (x.length / 4294967296 % 256)
        :: (x.length / 1099511627776 % 256) :: (x.length / 281474976710656 % 256)
        :: (x.length / 72057594037927936 % 256)
        :: (padOf (encBitsFrom (codeMapOf root) x)
          :: bitsToBytes (padBits (encBitsFrom (codeMapOf root) x))) := by
    simp [le64]
  rw [hle, drop_eight_cons]
  have hsb : stripPad (bytesToBits (bitsToBytes (padBits (encBitsFrom (codeMapOf root) x))))
      (padOf (encBitsFrom (codeMapOf root) x)) = encBitsFrom (codeMapOf root) x := by
    rw [bytesToBits_bitsToBytes _ (padBits_length _), stripPad_padBits]
  show (match decodeLoop root
      (stripPad (bytesToBits (bitsToBytes (padBits (encBitsFrom (codeMapOf root) x))))
        (padOf (encBitsFrom (codeMapOf root) x)))
      root 0 (leVal (((x.length % 256) :: (x.length / 256 % 256) :: (x.length / 65536 % 256)
        :: (x.length / 16777216 % 256) :: (x.length / 4294967296 % 256)
        :: (x.length / 1099511627776 % 256) :: (x.length / 281474976710656 % 256)
        :: (x.length / 72057594037927936 % 256)
        :: (padOf (encBitsFrom (codeMapOf root) x)
          :: bitsToBytes (padBits (encBitsFrom (codeMapOf root) x)))).take 8)) [] with
    | none => DRes.undef
    | some out => DRes.ok out) ≠ DRes.undef
  rw [hsb]
  have hsafe : decodeLoop root (encBitsFrom (codeMapOf root) x) root 0
      (leVal (((x.length % 256) :: (x.length / 256 % 256) :: (x.length / 65536 % 256)
        :: (x.length / 16777216 % 256) :: (x.length / 4294967296 % 256)
        :: (x.length / 1099511627776 % 256) :: (x.length / 281474976710656 % 256)
        :: (x.length / 72057594037927936 % 256)
        :: (padOf (encBitsFrom (codeMapOf root) x)
          :: bitsToBytes (padBits (encBitsFrom (codeMapOf root) x)))).take 8)) [] ≠ none := by
    subst hroot
    refine decodeLoop_safe hg hA hB _ _ _ _ _ hg ?_
    intro c' A' B' h
    injection h with h1 h2 h3
    subst h2; subst h3
    exact ⟨hA, hB⟩
  rcases hdl : decodeLoop root (encBitsFrom (codeMapOf root) x) root 0
      (leVal (((x.length % 256) :: (x.length / 256 % 256) :: (x.length / 65536 % 256)
        :: (x.length / 16777216 % 256) :: (x.length / 4294967296 % 256)
        :: (x.length / 1099511627776 % 256) :: (x.length / 281474976710656 % 256)
        :: (x.length / 72057594037927936 % 256)
        :: (padOf (encBitsFrom (codeMapOf root) x)
          :: bitsToBytes (padBits (encBitsFrom (codeMapOf root) x)))).take 8)) [] with
    _ | out
  · exact absurd hdl hsafe
  · simp [hdl]

/-! ## Singleton-container lemmas -/

theorem writeTree_single (s : Nat) :
    writeTree (HTree.mk 0 (HTree.mk s .nil .nil) .nil) = [48, 49, s] := by
  simp [writeTree]

theorem foldl_enc_const {cm : List (Nat × List Bool)} {s : Nat}
    (hcode : codeOf cm s = [false]) :
    ∀ (x : List Nat) (acc : List Bool), (∀ b ∈ x, b = s) →
      x.foldl (fun acc c => acc ++ codeOf cm c) acc
        = acc ++ List.replicate x.length false := by
  intro x
  induction x with
  | nil => intro acc _; simp
  | cons b t ih =>
    intro acc hall
    have hbs : b = s := hall b (by simp)
    show t.foldl (fun acc c => acc ++ codeOf cm c) (acc ++ codeOf cm b)
        = acc ++ List.replicate (b :: t).length false
    rw [hbs, hcode, ih (acc ++ [false]) (fun q hq => hall q (by simp [hq]))]
    simp [List.replicate_succ, List.append_assoc]

theorem encBits_const {cm : List (Nat × List Bool)} {s : Nat} {x : List Nat}
    (hcode : codeOf cm s = [false]) (hall : ∀ b ∈ x, b = s) :
    encBitsFrom cm x = List.replicate x.length false := by
  have h := foldl_enc_const hcode x [] hall
  simpa [encBitsFrom] using h

theorem padBits_replicate_false (m : Nat) (hm : 1 ≤ m) :
    ∃ j, 1 ≤ j ∧ padBits (List.replicate m false) = List.replicate (8 * j) false := by
  have hpad : padOf (List.replicate m false) = 8 - m % 8 := by
    unfold padOf; rw [List.length_replicate]
  by_cases hmod : m % 8 = 0
  · refine ⟨m / 8, by omega, ?_⟩
    rw [padBits, if_pos (by omega)]
    congr 1
    omega
  · refine ⟨(m + (8 - m % 8)) / 8, by omega, ?_⟩
    rw [padBits, if_neg (by omega), hpad, ← List.replicate_add]
    congr 1
    omega

theorem bitsToBytes_replicate (j : Nat) :
    bitsToBytes (List.replicate (8 * j) false) = List.replicate j 0 := by
  induction j with
  | zero => rfl
  | succ n ih =>
    have h1 : 8 * (n + 1) = 8 + 8 * n := by ring
    rw [h1, List.replicate_add]
    have h2 : (List.replicate 8 false : List Bool)
        = [false, false, false, false, false, false, false, false] := rfl
    rw [h2]
    show bitsToByte [false, false, false, false, false, false, false, false]
        :: bitsToBytes (List.replicate (8 * n) false) = List.replicate (n + 1) 0
    rw [ih]
    rfl

theorem bytesToBits_replicate (k : Nat) :
    bytesToBits (List.replicate k 0) = List.replicate (8 * k) false := by
  induction k with
  | zero => rfl
  | succ n ih =>
    rw [List.replicate_succ]
    show byteBits 0 ++ bytesToBits (List.replicate n 0) = List.replicate (8 * (n + 1)) false
    rw [ih]
    have h1 : 8 * (n + 1) = 8 + 8 * n := by ring
    rw [h1, List.replicate_add]
    rfl

theorem stripPad_zero (bs : List Bool) : stripPad bs 0 = bs := by
  rw [stripPad, if_neg (by omega), if_pos ⟨by omega, Nat.zero_le _⟩]
  simp [List.take_length]

theorem decodeLoop_single_safe (s : Nat) :
    ∀ (k dec size : Nat) (acc : List Nat),
      decodeLoop (HTree.mk 0 (HTree.mk s .nil .nil) .nil) (List.replicate k false)
        (HTree.mk 0 (HTree.mk s .nil .nil) .nil) dec size acc ≠ none := by
  intro k
  induction k with
  | zero => intro dec size acc; simp [decodeLoop]
  | succ n ih =>
    intro dec size acc
    rw [List.replicate_succ]
    simp only [decodeLoop]
    split
    · simp
    · show (if (HTree.nil : HTree) = HTree.nil ∧ (HTree.nil : HTree) = HTree.nil then
          decodeLoop (HTree.mk 0 (HTree.mk s .nil .nil) .nil) (List.replicate n false)
            (HTree.mk 0 (HTree.mk s .nil .nil) .nil) (dec + 1) size (acc ++ [s])
        else decodeLoop (HTree.mk 0 (HTree.mk s .nil .nil) .nil) (List.replicate n false)
            (HTree.mk s .nil .nil) dec size acc) ≠ none
      rw [if_pos ⟨rfl, rfl⟩]
      exact ih (dec + 1) size (acc ++ [s])

theorem decompress_single_shape (s p' n k : Nat) :
    decompress (72 :: 85 :: 70 :: 49 :: 48 :: 49 :: s :: 35
        :: (le64 n ++ p' :: 0 :: List.replicate k 0)) ≠ DRes.undef := by
  have hread : readTreeF (((72 :: 85 :: 70 :: 49 :: 48 :: 49 :: s :: 35
        :: (le64 n ++ p' :: 0 :: List.replicate k 0)).drop 4).length + 1)
      ((72 :: 85 :: 70 :: 49 :: 48 :: 49 :: s :: 35
        :: (le64 n ++ p' :: 0 :: List.replicate k 0)).drop 4)
      = some (HTree.mk 0 (HTree.mk s .nil .nil) .nil,
          le64 n ++ p' :: 0 :: List.replicate k 0) := by
    exact readTreeF_single s _ _ (by simp)
  rw [decompress_parse (72 :: 85 :: 70 :: 49 :: 48 :: 49 :: s :: 35
      :: (le64 n ++ p' :: 0 :: List.replicate k 0))
    (HTree.mk 0 (HTree.mk s .nil .nil) .nil)
    (le64 n ++ p' :: 0 :: List.replicate k 0) rfl hread (by simp [le64])]
  have hle : le64 n ++ p' :: 0 :: List.replicate k 0
      = (n % 256) :: (n / 256 % 256) :: (n / 65536 % 256) :: (n / 16777216 % 256)
        :: (n / 4294967296 % 256) :: (n / 1099511627776 % 256)
        :: (n / 281474976710656 % 256) :: (n / 72057594037927936 % 256)
        :: p' :: 0 :: List.replicate k 0 := by
    simp [le64]
  rw [hle, drop_one_cons, drop_eight_cons]
  show (match decodeLoop (HTree.mk 0 (HTree.mk s .nil .nil) .nil)
      (stripPad (bytesToBits (List.replicate k 0)) 0)
      (HTree.mk 0 (HTree.mk s .nil .nil) .nil) 0
      (leVal (((n / 256 % 256) :: (n / 65536 % 256) :: (n / 16777216 % 256)
        :: (n / 4294967296 % 256) :: (n / 1099511627776 % 256)
        :: (n / 281474976710656 % 256) :: (n / 72057594037927936 % 256)
        :: p' :: 0 :: List.replicate k 0).take 8)) [] with
    | none => DRes.undef
    | some out => DRes.ok out) ≠ DRes.undef
  rw [bytesToBits_replicate, stripPad_zero]
  rcases hdl : decodeLoop (HTree.mk 0 (HTree.mk s .nil .nil) .nil)
      (List.replicate (8 * k) false)
      (HTree.mk 0 (HTree.mk s .nil .nil) .nil) 0
      (leVal (((n / 256 % 256) :: (n / 65536 % 256) :: (n / 16777216 % 256)
        :: (n / 4294967296 % 256) :: (n / 1099511627776 % 256)
        :: (n / 281474976710656 % 256) :: (n / 72057594037927936 % 256)
        :: p' :: 0 :: List.replicate k 0).take 8)) [] with
    _ | out
  · exact absurd hdl (decodeLoop_single_safe s (8 * k) 0 _ [])
  · simp [hdl]

theorem c10_single_case {x : List Nat} {pp : Nat × Nat}
    (hf : freqList x = [pp]) :
    decompress (containerBytes (HTree.mk 0 (HTree.mk pp.1 .nil .nil) .nil) x)
      ≠ DRes.undef := by
  have hne : x ≠ [] := by
    intro h; subst h
    simp [freqList, distinctSyms] at hf
  have hdist : distinctSyms x = [pp.1] := by
    have h := freqList_map_fst x
    rw [hf] at h
    simpa using h.symm
  have hall : ∀ b ∈ x, b = pp.1 := by
    intro b hb
    have hmem := mem_distinctSyms hb
    rw [hdist] at hmem
    simpa using hmem
  have hbits : encBitsFrom (codeMapOf (HTree.mk 0 (HTree.mk pp.1 .nil .nil) .nil)) x
      = List.replicate x.length false := by
    rw [codeMapOf_single]
    exact encBits_const (codeOf_singleton_map pp.1 [false]) hall
  have hm : 1 ≤ x.length := by
    cases x
    · exact absurd rfl hne
    · simp
  obtain ⟨j, hj, hpadded⟩ := padBits_replicate_false x.length hm
  obtain ⟨k, rfl⟩ : ∃ k, j = k + 1 := ⟨j - 1, by omega⟩
  have hpay : bitsToBytes (padBits
        (encBitsFrom (codeMapOf (HTree.mk 0 (HTree.mk pp.1 .nil .nil) .nil)) x))
      = 0 :: List.replicate k 0 := by
    rw [hbits, hpadded, bitsToBytes_replicate]
    rfl
  have h1 : containerBytes (HTree.mk 0 (HTree.mk pp.1 .nil .nil) .nil) x
      = 72 :: 85 :: 70 :: 49 :: 48 :: 49 :: pp.1 :: 35
        :: (le64 x.length
          ++ padOf (encBitsFrom (codeMapOf (HTree.mk 0 (HTree.mk pp.1 .nil .nil) .nil)) x)
            :: 0 :: List.replicate k 0) := by
    rw [containerBytes, writeTree_single, hpay]
    simp [List.append_assoc]
  rw [h1]
  exact decompress_single_shape pp.1 _ x.length k

/-! ## C10 theorem -/

/-- C10: the decode walk dereferences child pointers without any
missing-child check, and for every container `compress` produces on a
non-empty input (under every admissible equal-weight extraction order) the
walk never reaches a null child before the loop stops, so the dereference
is safe and decompression never hits the modelled undefined behaviour.  For
two or more distinct symbols this holds because the built tree is full; for
a single distinct symbol the (misparsed, see C1) payload bits are all zero,
so the walk only ever steps into the left child and never into the absent
right child of the singleton root. -/
theorem c10_decode_walk_safe (os x cont : List Nat)
    (h : compressO os x = some cont) : decompress cont ≠ DRes.undef := by
  unfold compressO at h
  cases hb : buildTree os x with
  | none => rw [hb] at h; simp at h
  | some root =>
    rw [hb] at h
    simp only [Option.some.injEq] at h
    subst h
    rcases hfl : freqList x with _ | ⟨pp, tl⟩
    · exfalso
      rw [buildTree, hfl] at hb
      simp [wrapSingle, buildLoop] at hb
    · rcases tl with _ | ⟨qq, tl2⟩
      · have hone : buildTree os x
            = some (HTree.mk 0 (HTree.mk pp.1 .nil .nil) .nil) := by
          simp only [buildTree, hfl, List.map_cons, List.map_nil, wrapSingle]
          rw [buildLoop_short _ _ _ _ (by simp)]
        rw [hone] at hb
        simp only [Option.some.injEq] at hb
        subst hb
        exact c10_single_case hfl
      · exact c10_general_case (by rw [hfl]; simp) hb

theorem c10_decode_walk_safe_witness :
    decompress [72, 85, 70, 49, 48, 49, 97, 35, 1, 0, 0, 0, 0, 0, 0, 0, 7, 0]
      ≠ DRes.undef :=
  c10_decode_walk_safe [] [97]
    [72, 85, 70, 49, 48, 49, 97, 35, 1, 0, 0, 0, 0, 0, 0, 0, 7, 0] (by decide)
